import Mathlib

/-!
Verification development for the speciesnet-taxonomy-mapper matching engine.

Shallow embedding of the Python sources taxonomy.py and matcher.py:
Python strings are modelled as List Char, Python dicts as association
lists with replace-or-append insertion (insertion order, last value
wins), and the external LLM call together with JSON parsing of its
response is modelled as an Option (List GeminiItem) input at the
capability boundary (none models any exception raised while calling
the model or parsing its response).
-/

set_option maxHeartbeats 1000000

/-- Python str modelled as a list of characters. -/
abbrev PyStr := List Char

/-- Whitespace characters stripped by Python str.strip (ASCII fragment). -/
def isPySpace (c : Char) : Bool :=
  c.toNat = 32 ∨ c.toNat = 9 ∨ c.toNat = 10 ∨ c.toNat = 13 ∨ c.toNat = 11 ∨ c.toNat = 12

/-- Python str.lower on one character (ASCII fragment). -/
def pyLowerChar (c : Char) : Char :=
  if 65 ≤ c.toNat ∧ c.toNat ≤ 90 then Char.ofNat (c.toNat + 32) else c

/-- Python str.lower (ASCII fragment). -/
def pyLower (s : PyStr) : PyStr := s.map pyLowerChar

/-- Remove trailing characters satisfying p. -/
def dropTrailing (p : Char → Bool) (s : PyStr) : PyStr :=
  ((s.reverse).dropWhile p).reverse

/-- Python str.strip with no argument: remove leading and trailing whitespace. -/
def pyStrip (s : PyStr) : PyStr :=
  dropTrailing isPySpace (s.dropWhile isPySpace)

/-- The key normalization used by the index lookups: name.lower().strip(). -/
def normKey (s : PyStr) : PyStr := pyStrip (pyLower s)

/-- Python str.split(sep) for a one-character separator: always returns at
least one piece, empty pieces are kept. -/
def splitOnChar (sep : Char) : PyStr → List PyStr
  | [] => [[]]
  | c :: cs =>
    let rest := splitOnChar sep cs
    if c = sep then [] :: rest
    else
      match rest with
      | [] => [[c]]
      | r :: rs => (c :: r) :: rs

/-- Split on a predicate, keeping empty pieces (helper for whitespace split). -/
def splitOnPred (p : Char → Bool) : PyStr → List PyStr
  | [] => [[]]
  | c :: cs =>
    let rest := splitOnPred p cs
    if p c then [] :: rest
    else
      match rest with
      | [] => [[c]]
      | r :: rs => (c :: r) :: rs

/-- Python str.split() with no argument: split on whitespace runs, dropping
empty pieces. -/
def pySplitWS (s : PyStr) : List PyStr :=
  (splitOnPred isPySpace s).filter (fun w => decide (w ≠ []))

/-- One row of the taxonomic reference table as stored by TaxonomyLoader.load:
the entry dict with keys latin, common, line_parts. -/
structure Entry where
  latin : PyStr
  common : PyStr
  line_parts : List PyStr
deriving DecidableEq, Inhabited

/-- Python dict assignment d[k] = v: replace the value at an existing key in
place, otherwise append the binding. -/
def dictInsert (k : PyStr) (v : Entry) : List (PyStr × Entry) → List (PyStr × Entry)
  | [] => [(k, v)]
  | (k2, v2) :: rest =>
    if k2 = k then (k, v) :: rest else (k2, v2) :: dictInsert k v rest

/-- Python dict.get k: the value bound to k, if any. -/
def dictGet (k : PyStr) (d : List (PyStr × Entry)) : Option Entry :=
  (d.find? (fun p => decide (p.1 = k))).map (fun p => p.2)

/-- The in-memory state of TaxonomyLoader: the two index dicts.
(valid_latin_names is write-only in the matching paths and is omitted.) -/
structure Taxonomy where
  latin_to_row : List (PyStr × Entry)
  common_to_row : List (PyStr × Entry)
deriving DecidableEq, Inhabited

/-- The body of the row loop of TaxonomyLoader.load after splitting on
semicolons: builds the entry, or skips the row (taxonomy.py lines 25-57). -/
def parseRow (parts : List PyStr) : Option Entry :=
  match parts with
  | _guid :: cls :: ord :: fam :: gen :: spec :: common :: _rest =>
    if spec ≠ [] then some ⟨pyLower (gen ++ ' ' :: spec), common, parts⟩
    else if gen ≠ [] then some ⟨pyLower gen, common, parts⟩
    else if fam ≠ [] then some ⟨pyLower fam, common, parts⟩
    else if ord ≠ [] then some ⟨pyLower ord, common, parts⟩
    else if cls ≠ [] then some ⟨pyLower cls, common, parts⟩
    else none
  | _ => none

/-- One iteration of the line loop of TaxonomyLoader.load
(taxonomy.py lines 20-63). -/
def loadLine (tax : Taxonomy) (rawLine : PyStr) : Taxonomy :=
  let line := pyStrip rawLine
  if line = [] then tax
  else
    match parseRow (splitOnChar ';' line) with
    | none => tax
    | some entry =>
      let tax1 : Taxonomy :=
        { tax with latin_to_row := dictInsert entry.latin entry tax.latin_to_row }
      if entry.common ≠ [] then
        { tax1 with common_to_row := dictInsert (pyLower entry.common) entry tax1.common_to_row }
      else tax1

/-- TaxonomyLoader.load over the list of file lines. -/
def load (fileLines : List PyStr) : Taxonomy :=
  fileLines.foldl loadLine ⟨[], []⟩

/-- TaxonomyLoader.get_by_latin (taxonomy.py lines 65-66). -/
def get_by_latin (tax : Taxonomy) (latin_name : PyStr) : Option Entry :=
  dictGet (normKey latin_name) tax.latin_to_row

/-- TaxonomyLoader.get_by_common (taxonomy.py lines 68-69). -/
def get_by_common (tax : Taxonomy) (common_name : PyStr) : Option Entry :=
  dictGet (normKey common_name) tax.common_to_row

/-- The taxonomic level returned by get_by_hierarchy, plus the two further
values stored in the match_level field by matcher.py. -/
inductive Level where
  | species
  | genus
  | family
  | order
  | cls
  | common_name_fallback
  | ambiguous
deriving DecidableEq, Inhabited

/-- TaxonomyLoader.get_by_hierarchy (taxonomy.py lines 71-115): normalize the
five rank fields, then try species, genus, family, order, class in turn,
returning on the first hit.  The empty string models both Python None and
the empty string (both are falsy in the guards). -/
def get_by_hierarchy (tax : Taxonomy)
    (tax_class tax_order tax_family tax_genus tax_species : PyStr) :
    Option (Entry × Level) :=
  let c := normKey tax_class
  let o := normKey tax_order
  let f := normKey tax_family
  let g := normKey tax_genus
  let s := normKey tax_species
  match (if g ≠ [] ∧ s ≠ [] then get_by_latin tax (g ++ ' ' :: s) else none) with
  | some entry => some (entry, Level.species)
  | none =>
  match (if g ≠ [] then get_by_latin tax g else none) with
  | some entry => some (entry, Level.genus)
  | none =>
  match (if f ≠ [] then get_by_latin tax f else none) with
  | some entry => some (entry, Level.family)
  | none =>
  match (if o ≠ [] then get_by_latin tax o else none) with
  | some entry => some (entry, Level.order)
  | none =>
  match (if c ≠ [] then get_by_latin tax c else none) with
  | some entry => some (entry, Level.cls)
  | none => none

/-- The per-line resolution state built by matcher.py: the result dict with
keys latin, common, original_latin, original_common, raw_input, plus the
match_level key added in pass 2 (none models the key being absent). -/
structure LineResult where
  latin : PyStr
  common : PyStr
  original_latin : PyStr
  original_common : PyStr
  raw_input : PyStr
  match_level : Option Level
deriving DecidableEq, Inhabited

/-- Matcher.is_likely_latin (matcher.py lines 174-178). -/
def is_likely_latin (text : PyStr) : Bool :=
  decide ((pySplitWS text).length ≤ 2)

/-- The token-classification core of Matcher.match_single_line_exact
(matcher.py lines 73-164), on the already split-and-stripped comma parts.
Returns (mapped_latin, mapped_common, original_latin, original_common).
The empty-parts case is unreachable: splitOnChar never returns []. -/
def match_fields (tax : Taxonomy) (parts : List PyStr) :
    PyStr × PyStr × PyStr × PyStr :=
  match parts with
  | [] => ([], [], [], [])
  | [token] =>
    match get_by_latin tax token with
    | some row => (row.latin, row.common, token, [])
    | none =>
      match get_by_common tax token with
      | some row => (row.latin, row.common, [], token)
      | none => ([], [], [], token)
  | p0 :: p1 :: _ =>
    match get_by_latin tax p0, get_by_latin tax p1 with
    | some r0, none => (r0.latin, r0.common, p0, p1)
    | none, some r1 => (r1.latin, r1.common, p1, p0)
    | _, _ =>
      match get_by_common tax p0 with
      | some r0c => (r0c.latin, r0c.common, if is_likely_latin p1 then p1 else [], p0)
      | none =>
        match get_by_common tax p1 with
        | some r1c => (r1c.latin, r1c.common, if is_likely_latin p0 then p0 else [], p1)
        | none => ([], [], p1, p0)

/-- Matcher.match_single_line_exact (matcher.py lines 69-172): split the line
on commas, strip each token, classify, and build the result dict. -/
def match_single_line_exact (tax : Taxonomy) (line : PyStr) : LineResult :=
  let f := match_fields tax ((splitOnChar ',' line).map pyStrip)
  ⟨f.1, f.2.1, f.2.2.1, f.2.2.2, line, none⟩

/-- One LLM candidate object: the five optional rank strings, with the empty
string modelling an absent or null JSON field. -/
structure Candidate where
  cls : PyStr
  ord : PyStr
  fam : PyStr
  gen : PyStr
  spec : PyStr
deriving DecidableEq, Inhabited

/-- One element of the parsed JSON array returned by the model.  A none in
candidates models a falsy candidate (null or empty object), skipped by the
loop.  candidate_latin_names is the legacy flat format. -/
structure GeminiItem where
  input_text : PyStr
  candidates : List (Option Candidate)
  candidate_latin_names : List PyStr
  suggested_common : PyStr
deriving DecidableEq, Inhabited

/-- The backward-compatibility reshaping of the legacy candidate_latin_names
format (matcher.py lines 255-258). -/
def legacyCandidates (names : List PyStr) : List (Option Candidate) :=
  names.map (fun name =>
    let ws := pySplitWS name
    some { cls := [], ord := [], fam := [],
           gen := if name.contains ' ' then ws.headD [] else name,
           spec := if name.contains ' ' ∧ 1 < ws.length then ws.getD 1 [] else [] })

/-- The candidate loop of Matcher.batch_process_with_gemini (matcher.py lines
267-282): try each candidate with hierarchical matching, first hit wins. -/
def first_candidate_match (tax : Taxonomy) :
    List (Option Candidate) → Option (Entry × Level)
  | [] => none
  | none :: rest => first_candidate_match tax rest
  | some cand :: rest =>
    match get_by_hierarchy tax cand.cls cand.ord cand.fam cand.gen cand.spec with
    | some x => some x
    | none => first_candidate_match tax rest

/-- The per-item match computation of Matcher.batch_process_with_gemini
(matcher.py lines 250-290): legacy reshape, candidate loop, then the
suggested-common-name fallback. -/
def computeItemMatch (tax : Taxonomy) (item : GeminiItem) : Option (Entry × Level) :=
  let cands :=
    if item.candidates = [] ∧ item.candidate_latin_names ≠ [] then
      legacyCandidates item.candidate_latin_names
    else item.candidates
  match first_candidate_match tax cands with
  | some x => some x
  | none =>
    if item.suggested_common ≠ [] then
      (get_by_common tax item.suggested_common).map (fun e => (e, Level.common_name_fallback))
    else none

/-- The inner conditional of the write-back loop (matcher.py lines 296-299):
copy the matched canonical fields and the match level into the result when a
match was found, otherwise leave the result unchanged. -/
def pass2Update (r : LineResult) : Option (Entry × Level) → LineResult
  | some (e, lvl) => { r with latin := e.latin, common := e.common, match_level := some lvl }
  | none => r

/-- The write-back loop of Matcher.batch_process_with_gemini (matcher.py lines
292-300): walk the result list, and at the first result whose raw_input
equals the item text and whose latin is still empty, update it when a match
was found, then stop (the break is outside the inner if). -/
def updateResults (inp : PyStr) (matched : Option (Entry × Level)) :
    List LineResult → List LineResult
  | [] => []
  | r :: rest =>
    if r.raw_input = inp ∧ r.latin = [] then pass2Update r matched :: rest
    else r :: updateResults inp matched rest

/-- Processing of one returned item (matcher.py lines 250-300): skip items
with a falsy input_text, otherwise compute the match and write it back. -/
def processItem (tax : Taxonomy) (rs : List LineResult) (item : GeminiItem) :
    List LineResult :=
  if item.input_text = [] then rs
  else updateResults item.input_text (computeItemMatch tax item) rs

/-- Matcher.batch_process_with_gemini (matcher.py lines 180-304) at the
capability boundary: parsed is the outcome of the external model call plus
JSON parsing; none models any exception raised there, caught by the
try/except, which leaves the result list unchanged. -/
def batch_process_with_gemini (tax : Taxonomy) (parsed : Option (List GeminiItem))
    (rs : List LineResult) : List LineResult :=
  match parsed with
  | none => rs
  | some items => items.foldl (processItem tax) rs

/-- The grouping condition of Matcher.resolve_ambiguous_matches (matcher.py
line 322): a truthy match_level among genus, family, order, class, and a
truthy latin. -/
def isHigherLevelMatch (r : LineResult) : Bool :=
  (match r.match_level with
   | some Level.genus => true
   | some Level.family => true
   | some Level.order => true
   | some Level.cls => true
   | _ => false) && decide (r.latin ≠ [])

/-- Size of the group of higher-level matches sharing the latin value v. -/
def countHigher (rs : List LineResult) (v : PyStr) : Nat :=
  (rs.filter (fun r => isHigherLevelMatch r && decide (r.latin = v))).length

/-- Matcher.resolve_ambiguous_matches (matcher.py lines 306-334): group the
higher-level matches by latin value over the original list, then clear every
member of each group with more than one member. -/
def resolve_ambiguous_matches (rs : List LineResult) : List LineResult :=
  rs.map (fun r =>
    if isHigherLevelMatch r ∧ 1 < countHigher rs r.latin then
      { r with latin := [], common := [], match_level := some Level.ambiguous }
    else r)

/-- Matcher.process_input (matcher.py lines 35-67) on the list of lines of the
input text (input_text.splitlines()): pass 1 exact matching, pass 2 batched
LLM-assisted matching (run only when some line is unresolved and a model or
user key is available), pass 3 ambiguity resolution.  modelAvailable models
the truthiness of (self.model or user_api_key). -/
def process_input (tax : Taxonomy) (parsed : Option (List GeminiItem))
    (modelAvailable : Bool) (lines : List PyStr) : List LineResult :=
  let results :=
    ((lines.map pyStrip).filter (fun l => decide (l ≠ []))).map
      (match_single_line_exact tax)
  let results :=
    if results.any (fun r => decide (r.latin = [])) && modelAvailable then
      batch_process_with_gemini tax parsed results
    else results
  resolve_ambiguous_matches results

/-- An entry stored in either index mapping. -/
def entryOf (tax : Taxonomy) (e : Entry) : Prop :=
  e ∈ tax.latin_to_row.map Prod.snd ∨ e ∈ tax.common_to_row.map Prod.snd

/-- The invariant maintained by load over both index dicts: every key is a
lowercase string and every stored entry has a non-empty latin name. -/
def taxInv (tax : Taxonomy) : Prop :=
  (∀ p ∈ tax.latin_to_row, pyLower p.1 = p.1 ∧ p.1 = p.2.latin ∧ p.2.latin ≠ []) ∧
  (∀ p ∈ tax.common_to_row, pyLower p.1 = p.1 ∧ p.2.latin ≠ [])

/-- The canonical output fields are empty together, or both copied from one
stored entry. -/
def goodPair (tax : Taxonomy) (lat com : PyStr) : Prop :=
  (lat = [] ∧ com = []) ∨ ∃ e, entryOf tax e ∧ lat = e.latin ∧ com = e.common

/-- goodPair for the canonical fields of a line result. -/
def goodResult (tax : Taxonomy) (r : LineResult) : Prop :=
  goodPair tax r.latin r.common

/-! ### Concrete fixtures -/

def ursusRow : PyStr := ("g1;Mammalia;Carnivora;Ursidae;Ursus;arctos;Brown Bear").data

def vulpesRow : PyStr := ("g2;Mammalia;Carnivora;Canidae;Vulpes;;Fox").data

def emptyGenusRow : PyStr := ("g3;c;o;f;;arctos;Fox").data

def ursusParts : List PyStr :=
  [("g1").data, ("Mammalia").data, ("Carnivora").data, ("Ursidae").data,
   ("Ursus").data, ("arctos").data, ("Brown Bear").data]

def ursusEntry : Entry := ⟨("ursus arctos").data, ("Brown Bear").data, ursusParts⟩

def vulpesParts : List PyStr :=
  [("g2").data, ("Mammalia").data, ("Carnivora").data, ("Canidae").data,
   ("Vulpes").data, [], ("Fox").data]

def vulpesEntry : Entry := ⟨("vulpes").data, ("Fox").data, vulpesParts⟩

def emptyGenusParts : List PyStr :=
  [("g3").data, ("c").data, ("o").data, ("f").data, [], ("arctos").data, ("Fox").data]

def tax1 : Taxonomy := load [ursusRow]

def tax2 : Taxonomy := load [vulpesRow]

def rgenus1 : LineResult :=
  ⟨("vulpes").data, ("Fox").data, [], [], ("line1").data, some Level.genus⟩

def rgenus2 : LineResult :=
  ⟨("vulpes").data, ("Fox").data, [], [], ("line2").data, some Level.genus⟩

def rspec : LineResult :=
  ⟨("vulpes vulpes").data, ("Red Fox").data, [], [], ("line3").data, some Level.species⟩

def rs0 : List LineResult := [rgenus1, rgenus2, rspec]

def rsU : List LineResult :=
  [⟨[], [], [], ("silvertip").data, ("silvertip").data, none⟩]

def item0 : GeminiItem := ⟨("silvertip").data, [], [], ("Brown Bear").data⟩

/-- Index wellformedness used by the pair invariant: every stored entry has a
non-empty latin field (load always establishes this, see load_taxInv). -/
def wellFormed (tax : Taxonomy) : Prop :=
  (∀ p ∈ tax.latin_to_row, p.2.latin ≠ []) ∧ (∀ p ∈ tax.common_to_row, p.2.latin ≠ [])

/-! ### String normalization lemmas -/

theorem toNat_ofNat_of_lt {n : Nat} (h : n < 55296) : (Char.ofNat n).toNat = n := by
  have hv : n.isValidChar := Or.inl h
  simp only [Char.ofNat, hv, dite_true, Char.ofNatAux, Char.toNat, UInt32.toNat]
  simp [BitVec.toNat_ofNatLt]

theorem pyLowerChar_toNat_of_upper {c : Char} (h : 65 ≤ c.toNat ∧ c.toNat ≤ 90) :
    (pyLowerChar c).toNat = c.toNat + 32 := by
  unfold pyLowerChar
  rw [if_pos h]
  exact toNat_ofNat_of_lt (by omega)

theorem pyLowerChar_idem (c : Char) : pyLowerChar (pyLowerChar c) = pyLowerChar c := by
  have hn : ¬ (65 ≤ (pyLowerChar c).toNat ∧ (pyLowerChar c).toNat ≤ 90) := by
    by_cases h : 65 ≤ c.toNat ∧ c.toNat ≤ 90
    · have ht : (pyLowerChar c).toNat = c.toNat + 32 := pyLowerChar_toNat_of_upper h
      omega
    · rw [pyLowerChar, if_neg h]
      exact h
  conv_lhs => rw [pyLowerChar]
  rw [if_neg hn]

theorem isPySpace_pyLowerChar (c : Char) : isPySpace (pyLowerChar c) = isPySpace c := by
  by_cases h : 65 ≤ c.toNat ∧ c.toNat ≤ 90
  · have ht : (pyLowerChar c).toNat = c.toNat + 32 := pyLowerChar_toNat_of_upper h
    unfold isPySpace
    rw [ht]
    apply decide_eq_decide.mpr
    omega
  · rw [pyLowerChar, if_neg h]

theorem pyLower_idem (s : PyStr) : pyLower (pyLower s) = pyLower s := by
  unfold pyLower
  rw [List.map_map]
  exact List.map_congr_left (fun c _ => pyLowerChar_idem c)

theorem dropWhile_dropWhile (p : Char → Bool) (l : PyStr) :
    (l.dropWhile p).dropWhile p = l.dropWhile p := by
  induction l with
  | nil => rfl
  | cons a as ih =>
    by_cases h : p a
    · rw [List.dropWhile_cons_of_pos h]
      exact ih
    · rw [List.dropWhile_cons_of_neg h, List.dropWhile_cons_of_neg h]

theorem p_head_false_of_dropWhile {p : Char → Bool} {l : PyStr} {a : Char} {as : PyStr}
    (h : l.dropWhile p = a :: as) : p a = false := by
  induction l with
  | nil => simp at h
  | cons x xs ih =>
    by_cases hx : p x
    · rw [List.dropWhile_cons_of_pos hx] at h
      exact ih h
    · rw [List.dropWhile_cons_of_neg hx] at h
      cases h
      exact Bool.eq_false_iff.mpr hx

theorem dropTrailing_append (p : Char → Bool) (l : PyStr) :
    dropTrailing p l ++ (l.reverse.takeWhile p).reverse = l := by
  unfold dropTrailing
  rw [← List.reverse_append, List.takeWhile_append_dropWhile, List.reverse_reverse]

theorem dropWhile_dropTrailing {p : Char → Bool} {l : PyStr}
    (h : l.dropWhile p = l) : (dropTrailing p l).dropWhile p = dropTrailing p l := by
  rcases hB : dropTrailing p l with _ | ⟨b, bs⟩
  · rfl
  · have happ := dropTrailing_append p l
    rw [hB] at happ
    have hd : l.dropWhile p = b :: (bs ++ (l.reverse.takeWhile p).reverse) := by
      rw [h]
      simpa using happ.symm
    have hpb : p b = false := p_head_false_of_dropWhile hd
    rw [List.dropWhile_cons_of_neg (by simp [hpb])]

theorem dropTrailing_dropTrailing (p : Char → Bool) (l : PyStr) :
    dropTrailing p (dropTrailing p l) = dropTrailing p l := by
  unfold dropTrailing
  rw [List.reverse_reverse, dropWhile_dropWhile]

theorem pyStrip_idem (s : PyStr) : pyStrip (pyStrip s) = pyStrip s := by
  unfold pyStrip
  rw [dropWhile_dropTrailing (dropWhile_dropWhile isPySpace s),
      dropTrailing_dropTrailing]

theorem dropWhile_pyLower (p : Char → Bool) (hp : ∀ c, p (pyLowerChar c) = p c)
    (s : PyStr) : (pyLower s).dropWhile p = pyLower (s.dropWhile p) := by
  have hpe : (p ∘ pyLowerChar) = p := funext hp
  unfold pyLower
  rw [List.dropWhile_map, hpe]

theorem pyLower_reverse (s : PyStr) : pyLower s.reverse = (pyLower s).reverse := by
  unfold pyLower
  rw [List.map_reverse]

theorem dropTrailing_pyLower (s : PyStr) :
    dropTrailing isPySpace (pyLower s) = pyLower (dropTrailing isPySpace s) := by
  unfold dropTrailing
  rw [← pyLower_reverse, dropWhile_pyLower isPySpace isPySpace_pyLowerChar,
      ← pyLower_reverse]

theorem pyLower_pyStrip (s : PyStr) : pyStrip (pyLower s) = pyLower (pyStrip s) := by
  unfold pyStrip
  rw [dropWhile_pyLower isPySpace isPySpace_pyLowerChar, dropTrailing_pyLower]

theorem normKey_idem (s : PyStr) : normKey (normKey s) = normKey s := by
  unfold normKey
  rw [pyLower_pyStrip, pyStrip_idem, ← pyLower_pyStrip, pyLower_idem]

/-! ### Dictionary and index lemmas -/

theorem mem_dictInsert {k : PyStr} {v : Entry} {d : List (PyStr × Entry)}
    {p : PyStr × Entry} (h : p ∈ dictInsert k v d) : p = (k, v) ∨ p ∈ d := by
  induction d with
  | nil =>
    exact Or.inl (List.mem_singleton.mp h)
  | cons q rest ih =>
    rw [dictInsert.eq_def] at h
    by_cases hk : q.1 = k
    · simp only [hk, if_pos rfl] at h
      rcases List.mem_cons.mp h with h1 | h1
      · exact Or.inl h1
      · exact Or.inr (List.mem_cons_of_mem q h1)
    · simp only [if_neg hk] at h
      rcases List.mem_cons.mp h with h1 | h1
      · exact Or.inr (h1 ▸ List.mem_cons_self q rest)
      · rcases ih h1 with h2 | h2
        · exact Or.inl h2
        · exact Or.inr (List.mem_cons_of_mem q h2)

theorem dictGet_mem {k : PyStr} {d : List (PyStr × Entry)} {e : Entry}
    (h : dictGet k d = some e) : ∃ p ∈ d, p.2 = e := by
  unfold dictGet at h
  rcases hf : d.find? (fun p => decide (p.1 = k)) with _ | p
  · rw [hf] at h
    exact Option.noConfusion h
  · rw [hf] at h
    exact ⟨p, List.mem_of_find?_eq_some hf, Option.some.inj h⟩


theorem get_by_latin_entryOf {tax : Taxonomy} {s : PyStr} {e : Entry}
    (h : get_by_latin tax s = some e) : entryOf tax e := by
  rcases dictGet_mem h with ⟨p, hp, hpe⟩
  exact Or.inl (hpe ▸ List.mem_map_of_mem Prod.snd hp)

theorem get_by_common_entryOf {tax : Taxonomy} {s : PyStr} {e : Entry}
    (h : get_by_common tax s = some e) : entryOf tax e := by
  rcases dictGet_mem h with ⟨p, hp, hpe⟩
  exact Or.inr (hpe ▸ List.mem_map_of_mem Prod.snd hp)

theorem if_lookup_entryOf {tax : Taxonomy} {cond : Prop} [Decidable cond]
    {name : PyStr} {e : Entry}
    (h : (if cond then get_by_latin tax name else none) = some e) : entryOf tax e := by
  split at h
  · exact get_by_latin_entryOf h
  · cases h

theorem get_by_hierarchy_entryOf {tax : Taxonomy} {c o f g s : PyStr}
    {e : Entry} {lvl : Level} (h : get_by_hierarchy tax c o f g s = some (e, lvl)) :
    entryOf tax e := by
  simp only [get_by_hierarchy] at h
  repeat' split at h
  all_goals first
    | (rename_i heq
       injection h with h1
       injection h1 with h2 h3
       subst h2
       exact if_lookup_entryOf heq)
    | cases h

/-! ### Load invariants -/

theorem parseRow_entry_props {parts : List PyStr} {e : Entry}
    (h : parseRow parts = some e) : pyLower e.latin = e.latin ∧ e.latin ≠ [] := by
  unfold parseRow at h
  repeat' split at h
  all_goals first
    | (rename_i hc
       injection h with h1
       subst h1
       refine ⟨pyLower_idem _, ?_⟩
       simp only [pyLower, ne_eq, List.map_eq_nil_iff]
       first
         | simp
         | exact hc)
    | cases h


theorem loadLine_taxInv {tax : Taxonomy} {l : PyStr} (h : taxInv tax) :
    taxInv (loadLine tax l) := by
  simp only [loadLine]
  split
  · exact h
  · split
    · exact h
    · rename_i entry hpr
      have props := parseRow_entry_props hpr
      have hlat : ∀ p ∈ dictInsert entry.latin entry tax.latin_to_row,
          pyLower p.1 = p.1 ∧ p.1 = p.2.latin ∧ p.2.latin ≠ [] := by
        intro p hp
        rcases mem_dictInsert hp with h1 | h1
        · rw [h1]
          exact ⟨props.1, rfl, props.2⟩
        · exact h.1 p h1
      have hcom : ∀ (kc : PyStr), ∀ p ∈ dictInsert (pyLower kc) entry tax.common_to_row,
          pyLower p.1 = p.1 ∧ p.2.latin ≠ [] := by
        intro kc p hp
        rcases mem_dictInsert hp with h1 | h1
        · rw [h1]
          exact ⟨pyLower_idem kc, props.2⟩
        · exact h.2 p h1
      split
      · exact ⟨hlat, hcom entry.common⟩
      · exact ⟨hlat, h.2⟩

theorem foldl_loadLine_taxInv (lines : List PyStr) :
    ∀ tax : Taxonomy, taxInv tax → taxInv (lines.foldl loadLine tax) := by
  induction lines with
  | nil => intro tax h; exact h
  | cons l ls ih => intro tax h; exact ih _ (loadLine_taxInv h)

theorem load_taxInv (fileLines : List PyStr) : taxInv (load fileLines) := by
  refine foldl_loadLine_taxInv fileLines ⟨[], []⟩ ⟨?_, ?_⟩ <;> simp

/-! ### Pass-1 lemmas -/


theorem match_fields_good (tax : Taxonomy) (parts : List PyStr) :
    goodPair tax (match_fields tax parts).1 (match_fields tax parts).2.1 := by
  rcases parts with _ | ⟨p0, rest0⟩
  · exact Or.inl ⟨rfl, rfl⟩
  rcases rest0 with _ | ⟨p1, rest⟩
  · rcases hl : get_by_latin tax p0 with _ | row
    · rcases hc : get_by_common tax p0 with _ | row
      · simp only [match_fields, hl, hc]
        exact Or.inl ⟨rfl, rfl⟩
      · simp only [match_fields, hl, hc]
        exact Or.inr ⟨row, get_by_common_entryOf hc, rfl, rfl⟩
    · simp only [match_fields, hl]
      exact Or.inr ⟨row, get_by_latin_entryOf hl, rfl, rfl⟩
  · rcases h0l : get_by_latin tax p0 with _ | r0 <;>
      rcases h1l : get_by_latin tax p1 with _ | r1
    · rcases h0c : get_by_common tax p0 with _ | r0c
      · rcases h1c : get_by_common tax p1 with _ | r1c
        · simp only [match_fields, h0l, h1l, h0c, h1c]
          exact Or.inl ⟨rfl, rfl⟩
        · simp only [match_fields, h0l, h1l, h0c, h1c]
          exact Or.inr ⟨r1c, get_by_common_entryOf h1c, rfl, rfl⟩
      · simp only [match_fields, h0l, h1l, h0c]
        exact Or.inr ⟨r0c, get_by_common_entryOf h0c, rfl, rfl⟩
    · simp only [match_fields, h0l, h1l]
      exact Or.inr ⟨r1, get_by_latin_entryOf h1l, rfl, rfl⟩
    · simp only [match_fields, h0l, h1l]
      exact Or.inr ⟨r0, get_by_latin_entryOf h0l, rfl, rfl⟩
    · rcases h0c : get_by_common tax p0 with _ | r0c
      · rcases h1c : get_by_common tax p1 with _ | r1c
        · simp only [match_fields, h0l, h1l, h0c, h1c]
          exact Or.inl ⟨rfl, rfl⟩
        · simp only [match_fields, h0l, h1l, h0c, h1c]
          exact Or.inr ⟨r1c, get_by_common_entryOf h1c, rfl, rfl⟩
      · simp only [match_fields, h0l, h1l, h0c]
        exact Or.inr ⟨r0c, get_by_common_entryOf h0c, rfl, rfl⟩

theorem msle_raw (tax : Taxonomy) (line : PyStr) :
    (match_single_line_exact tax line).raw_input = line := rfl

theorem msle_level (tax : Taxonomy) (line : PyStr) :
    (match_single_line_exact tax line).match_level = none := rfl

theorem msle_good (tax : Taxonomy) (line : PyStr) :
    goodResult tax (match_single_line_exact tax line) :=
  match_fields_good tax ((splitOnChar ',' line).map pyStrip)

/-! ### Write-back loop lemmas -/

theorem updateResults_length (inp : PyStr) (m : Option (Entry × Level))
    (rs : List LineResult) : (updateResults inp m rs).length = rs.length := by
  induction rs with
  | nil => rfl
  | cons r rest ih =>
    simp only [updateResults]
    split
    · simp
    · simp [ih]

theorem pass2Update_raw (r : LineResult) (m : Option (Entry × Level)) :
    (pass2Update r m).raw_input = r.raw_input := by
  rcases m with _ | ⟨e, lvl⟩ <;> rfl

theorem updateResults_raw (inp : PyStr) (m : Option (Entry × Level))
    (rs : List LineResult) :
    (updateResults inp m rs).map (fun r => r.raw_input) =
      rs.map (fun r => r.raw_input) := by
  induction rs with
  | nil => rfl
  | cons r rest ih =>
    simp only [updateResults]
    split
    · simp only [List.map_cons, pass2Update_raw]
    · simp only [List.map_cons, ih]

theorem updateResults_get (inp : PyStr) (m : Option (Entry × Level))
    (rs : List LineResult) (i : Nat) (hi : i < rs.length)
    (hi2 : i < (updateResults inp m rs).length) :
    (updateResults inp m rs)[i] = rs[i] ∨
    (rs[i].raw_input = inp ∧ rs[i].latin = [] ∧
     ∀ j (hj : j < rs.length), j < i →
       ¬ (rs[j].raw_input = inp ∧ rs[j].latin = [])) := by
  induction rs generalizing i with
  | nil => exact absurd hi (by simp)
  | cons r rest ih =>
    by_cases hc : (r.raw_input = inp ∧ r.latin = [])
    · have heq : updateResults inp m (r :: rest) = pass2Update r m :: rest := by
        simp only [updateResults, if_pos hc]
      cases i with
      | zero =>
        right
        exact ⟨hc.1, hc.2, fun j hj hji => absurd hji (by omega)⟩
      | succ k =>
        left
        simp only [heq, List.getElem_cons_succ]
    · have heq : updateResults inp m (r :: rest) = r :: updateResults inp m rest := by
        simp only [updateResults, if_neg hc]
      cases i with
      | zero =>
        left
        simp only [heq, List.getElem_cons_zero]
      | succ k =>
        have hk : k < rest.length := by simpa using hi
        have hk2 : k < (updateResults inp m rest).length := by
          rw [updateResults_length]
          exact hk
        rcases ih k hk hk2 with h1 | ⟨h1, h2, h3⟩
        · left
          simp only [heq, List.getElem_cons_succ]
          exact h1
        · right
          refine ⟨by simpa using h1, by simpa using h2, ?_⟩
          intro j hj hji
          cases j with
          | zero =>
            simpa using hc
          | succ j2 =>
            have hj2 : j2 < rest.length := by simpa using hj
            have hmin := h3 j2 hj2 (by omega)
            simpa using hmin

theorem updateResults_good {tax : Taxonomy} {inp : PyStr} {m : Option (Entry × Level)}
    (hm : ∀ e lvl, m = some (e, lvl) → entryOf tax e) :
    ∀ rs : List LineResult, (∀ r ∈ rs, goodResult tax r) →
      ∀ r ∈ updateResults inp m rs, goodResult tax r := by
  intro rs
  induction rs with
  | nil =>
    intro _ r hr
    simp [updateResults] at hr
  | cons r0 rest ih =>
    intro h r hr
    simp only [updateResults] at hr
    split at hr
    · rcases List.mem_cons.mp hr with h1 | h1
      · subst h1
        rcases hm2 : m with _ | ⟨e, lvl⟩
        · simp only [pass2Update]
          exact h r0 (List.mem_cons_self r0 rest)
        · simp only [pass2Update]
          exact Or.inr ⟨e, hm e lvl hm2, rfl, rfl⟩
      · exact h r (List.mem_cons_of_mem r0 h1)
    · rcases List.mem_cons.mp hr with h1 | h1
      · exact h r (List.mem_cons.mpr (Or.inl h1))
      · exact ih (fun x hx => h x (List.mem_cons_of_mem r0 hx)) r h1

/-! ### Pass-2 item lemmas -/

theorem first_candidate_match_entryOf {tax : Taxonomy} :
    ∀ (cands : List (Option Candidate)) {e : Entry} {lvl : Level},
      first_candidate_match tax cands = some (e, lvl) → entryOf tax e := by
  intro cands
  induction cands with
  | nil => intro e lvl h; cases h
  | cons c rest ih =>
    intro e lvl h
    rcases c with _ | cand
    · exact ih h
    · simp only [first_candidate_match] at h
      rcases hg : get_by_hierarchy tax cand.cls cand.ord cand.fam cand.gen cand.spec
        with _ | ⟨e1, l1⟩
      · rw [hg] at h
        exact ih h
      · rw [hg] at h
        cases h
        exact get_by_hierarchy_entryOf hg

theorem computeItemMatch_entryOf {tax : Taxonomy} {item : GeminiItem} {e : Entry}
    {lvl : Level} (h : computeItemMatch tax item = some (e, lvl)) : entryOf tax e := by
  simp only [computeItemMatch] at h
  split at h
  · rename_i x heq
    rcases x with ⟨e1, l1⟩
    cases h
    exact first_candidate_match_entryOf _ heq
  · split at h
    · rcases hc : get_by_common tax item.suggested_common with _ | e1
      · rw [hc] at h
        cases h
      · rw [hc] at h
        cases h
        exact get_by_common_entryOf hc
    · cases h

theorem processItem_length (tax : Taxonomy) (rs : List LineResult) (item : GeminiItem) :
    (processItem tax rs item).length = rs.length := by
  unfold processItem
  split
  · rfl
  · exact updateResults_length _ _ _

theorem processItem_raw (tax : Taxonomy) (rs : List LineResult) (item : GeminiItem) :
    (processItem tax rs item).map (fun r => r.raw_input) =
      rs.map (fun r => r.raw_input) := by
  unfold processItem
  split
  · rfl
  · exact updateResults_raw _ _ _

theorem processItem_get (tax : Taxonomy) (rs : List LineResult) (item : GeminiItem)
    (i : Nat) (hi : i < rs.length) (hi2 : i < (processItem tax rs item).length) :
    (processItem tax rs item)[i] = rs[i] ∨ rs[i].latin = [] := by
  unfold processItem at hi2 ⊢
  split
  · left
    rfl
  · rename_i hne
    rw [if_neg hne] at hi2
    rcases updateResults_get item.input_text (computeItemMatch tax item) rs i hi hi2
      with h1 | ⟨_, h2, _⟩
    · exact Or.inl h1
    · exact Or.inr h2

theorem processItem_good {tax : Taxonomy} {rs : List LineResult} {item : GeminiItem}
    (h : ∀ r ∈ rs, goodResult tax r) : ∀ r ∈ processItem tax rs item, goodResult tax r := by
  unfold processItem
  split
  · exact h
  · exact updateResults_good
      (fun e lvl hm => computeItemMatch_entryOf hm) rs h

theorem foldl_processItem_length (tax : Taxonomy) (items : List GeminiItem) :
    ∀ rs : List LineResult, (items.foldl (processItem tax) rs).length = rs.length := by
  induction items with
  | nil => intro rs; rfl
  | cons it its ih =>
    intro rs
    simp only [List.foldl_cons]
    rw [ih (processItem tax rs it), processItem_length]

theorem foldl_processItem_raw (tax : Taxonomy) (items : List GeminiItem) :
    ∀ rs : List LineResult,
      (items.foldl (processItem tax) rs).map (fun r => r.raw_input) =
        rs.map (fun r => r.raw_input) := by
  induction items with
  | nil => intro rs; rfl
  | cons it its ih =>
    intro rs
    simp only [List.foldl_cons]
    rw [ih (processItem tax rs it), processItem_raw]

theorem foldl_processItem_get (tax : Taxonomy) (items : List GeminiItem) :
    ∀ (rs : List LineResult) (i : Nat) (hi : i < rs.length)
      (hi2 : i < (items.foldl (processItem tax) rs).length),
      (items.foldl (processItem tax) rs)[i] = rs[i] ∨ rs[i].latin = [] := by
  induction items with
  | nil =>
    intro rs i hi hi2
    exact Or.inl rfl
  | cons it its ih =>
    intro rs i hi hi2
    simp only [List.foldl_cons] at hi2 ⊢
    have hs1 : i < (processItem tax rs it).length := by
      rw [processItem_length]
      exact hi
    rcases ih (processItem tax rs it) i hs1 hi2 with h1 | h1
    · rcases processItem_get tax rs it i hi hs1 with h2 | h2
      · exact Or.inl (h1.trans h2)
      · exact Or.inr h2
    · rcases processItem_get tax rs it i hi hs1 with h2 | h2
      · exact Or.inr (h2 ▸ h1)
      · exact Or.inr h2

theorem foldl_processItem_good {tax : Taxonomy} (items : List GeminiItem) :
    ∀ rs : List LineResult, (∀ r ∈ rs, goodResult tax r) →
      ∀ r ∈ items.foldl (processItem tax) rs, goodResult tax r := by
  induction items with
  | nil => intro rs h; exact h
  | cons it its ih =>
    intro rs h
    simp only [List.foldl_cons]
    exact ih (processItem tax rs it) (processItem_good h)

/-! ### Batch-processing lemmas -/

theorem batch_length (tax : Taxonomy) (parsed : Option (List GeminiItem))
    (rs : List LineResult) : (batch_process_with_gemini tax parsed rs).length = rs.length := by
  unfold batch_process_with_gemini
  rcases parsed with _ | items
  · rfl
  · exact foldl_processItem_length tax items rs

theorem batch_raw (tax : Taxonomy) (parsed : Option (List GeminiItem))
    (rs : List LineResult) :
    (batch_process_with_gemini tax parsed rs).map (fun r => r.raw_input) =
      rs.map (fun r => r.raw_input) := by
  unfold batch_process_with_gemini
  rcases parsed with _ | items
  · rfl
  · exact foldl_processItem_raw tax items rs

theorem batch_get (tax : Taxonomy) (parsed : Option (List GeminiItem))
    (rs : List LineResult) (i : Nat) (hi : i < rs.length)
    (hi2 : i < (batch_process_with_gemini tax parsed rs).length) :
    (batch_process_with_gemini tax parsed rs)[i] = rs[i] ∨ rs[i].latin = [] := by
  unfold batch_process_with_gemini at hi2 ⊢
  rcases parsed with _ | items
  · exact Or.inl rfl
  · exact foldl_processItem_get tax items rs i hi hi2

theorem batch_good {tax : Taxonomy} {parsed : Option (List GeminiItem)}
    {rs : List LineResult} (h : ∀ r ∈ rs, goodResult tax r) :
    ∀ r ∈ batch_process_with_gemini tax parsed rs, goodResult tax r := by
  unfold batch_process_with_gemini
  rcases parsed with _ | items
  · exact h
  · exact foldl_processItem_good items rs h

/-! ### Ambiguity-resolution lemmas -/

theorem resolve_length (rs : List LineResult) :
    (resolve_ambiguous_matches rs).length = rs.length := by
  unfold resolve_ambiguous_matches
  exact List.length_map rs _

theorem resolve_getElem (rs : List LineResult) (i : Nat) (hi : i < rs.length)
    (hi2 : i < (resolve_ambiguous_matches rs).length) :
    (resolve_ambiguous_matches rs)[i] =
      (if isHigherLevelMatch rs[i] ∧ 1 < countHigher rs rs[i].latin then
        { rs[i] with latin := [], common := [], match_level := some Level.ambiguous }
       else rs[i]) := by
  unfold resolve_ambiguous_matches at hi2 ⊢
  exact List.getElem_map _

theorem resolve_raw (rs : List LineResult) :
    (resolve_ambiguous_matches rs).map (fun r => r.raw_input) =
      rs.map (fun r => r.raw_input) := by
  unfold resolve_ambiguous_matches
  rw [List.map_map]
  apply List.map_congr_left
  intro r _
  simp only [Function.comp]
  split
  · rfl
  · rfl

theorem resolve_good {tax : Taxonomy} {rs : List LineResult}
    (h : ∀ r ∈ rs, goodResult tax r) :
    ∀ r ∈ resolve_ambiguous_matches rs, goodResult tax r := by
  intro r hr
  unfold resolve_ambiguous_matches at hr
  rcases List.mem_map.mp hr with ⟨x, hx, hfx⟩
  rw [← hfx]
  split
  · exact Or.inl ⟨rfl, rfl⟩
  · exact h x hx

/-! ### Pipeline lemmas -/

theorem process_input_raw (tax : Taxonomy) (parsed : Option (List GeminiItem))
    (modelAvailable : Bool) (lines : List PyStr) :
    (process_input tax parsed modelAvailable lines).map (fun r => r.raw_input) =
      (lines.map pyStrip).filter (fun l => decide (l ≠ [])) := by
  unfold process_input
  rw [resolve_raw]
  have hpass1 : (((lines.map pyStrip).filter (fun l => decide (l ≠ []))).map
      (match_single_line_exact tax)).map (fun r => r.raw_input) =
      (lines.map pyStrip).filter (fun l => decide (l ≠ [])) := by
    rw [List.map_map]
    have : ((fun r : LineResult => r.raw_input) ∘ match_single_line_exact tax) = id := by
      funext l
      exact msle_raw tax l
    rw [this, List.map_id]
  split
  · rw [batch_raw]
    exact hpass1
  · exact hpass1

theorem process_input_good (tax : Taxonomy) (parsed : Option (List GeminiItem))
    (modelAvailable : Bool) (lines : List PyStr) :
    ∀ r ∈ process_input tax parsed modelAvailable lines, goodResult tax r := by
  unfold process_input
  apply resolve_good
  have hpass1 : ∀ r ∈ ((lines.map pyStrip).filter (fun l => decide (l ≠ []))).map
      (match_single_line_exact tax), goodResult tax r := by
    intro r hr
    rcases List.mem_map.mp hr with ⟨l, _, hfl⟩
    rw [← hfl]
    exact msle_good tax l
  split
  · exact batch_good hpass1
  · exact hpass1


theorem entryOf_latin_ne_nil {tax : Taxonomy} {e : Entry} (hwf : wellFormed tax)
    (he : entryOf tax e) : e.latin ≠ [] := by
  rcases he with he | he
  · rcases List.mem_map.mp he with ⟨p, hp, hpe⟩
    exact hpe ▸ hwf.1 p hp
  · rcases List.mem_map.mp he with ⟨p, hp, hpe⟩
    exact hpe ▸ hwf.2 p hp

/-! ### Claim theorems -/

/-- Claim C6 (confirmed): Latin and common lookups are case- and
whitespace-insensitive in their argument: for every string s and every
index, get_by_latin applied to s returns the same result as get_by_latin
applied to the lowercased, trimmed form of s, and likewise for
get_by_common; in particular lookup of "  Ursus Arctos " and of
"ursus arctos" return the same result. -/
theorem c6_lookup_normalization (tax : Taxonomy) (s : PyStr) :
    get_by_latin tax s = get_by_latin tax (pyStrip (pyLower s)) ∧
    get_by_common tax s = get_by_common tax (pyStrip (pyLower s)) ∧
    get_by_latin tax (("  Ursus Arctos ").data) =
      get_by_latin tax (("ursus arctos").data) := by
  refine ⟨?_, ?_, ?_⟩
  · unfold get_by_latin
    rw [show pyStrip (pyLower s) = normKey s from rfl, normKey_idem]
  · unfold get_by_common
    rw [show pyStrip (pyLower s) = normKey s from rfl, normKey_idem]
  · unfold get_by_latin
    exact congrArg (fun k => dictGet k tax.latin_to_row) (by decide)

/-- Claim C1 counterexample: with a reference table holding only a genus-level
row for "vulpes", get_by_hierarchy called with genus "Vulpes" and the
non-absent species "x" returns a genus-level match found along the way after
the species-level lookup misses, contradicting the claim that a species-level
match or no match at all is returned whenever a species field is supplied. -/
theorem c1_counterexample :
    get_by_hierarchy tax2 [] [] [] (("Vulpes").data) (("x").data) =
      some (vulpesEntry, Level.genus) ∧
    normKey (("x").data) ≠ [] ∧
    get_by_latin tax2 (normKey (("Vulpes").data) ++ ' ' :: normKey (("x").data)) =
      none := by
  refine ⟨by decide, by decide, by decide⟩

/-- Claim C1 (amended): get_by_hierarchy searches from the most specific rank
downwards and returns the first table hit.  When genus and species are both
supplied, a hit for "genus species" is returned at species level; but when
that species-level lookup misses, the resolver falls through and behaves
exactly as if species had not been supplied, so it can return a genus-level
(or coarser) match. -/
theorem c1_hierarchy_species_first (tax : Taxonomy) (c o f g s : PyStr)
    (hg : normKey g ≠ []) (hs : normKey s ≠ []) :
    (∀ e, get_by_latin tax (normKey g ++ ' ' :: normKey s) = some e →
       get_by_hierarchy tax c o f g s = some (e, Level.species)) ∧
    (get_by_latin tax (normKey g ++ ' ' :: normKey s) = none →
       get_by_hierarchy tax c o f g s = get_by_hierarchy tax c o f g []) := by
  constructor
  · intro e he
    simp only [get_by_hierarchy]
    rw [if_pos ⟨hg, hs⟩, he]
  · intro he
    simp only [get_by_hierarchy]
    rw [if_pos ⟨hg, hs⟩, he,
      if_neg (show ¬(normKey g ≠ [] ∧ normKey ([] : PyStr) ≠ []) from fun hh => hh.2 rfl)]

/-- Witness for the amended claim C1 at a concrete input: genus "Vulpes" with
unknown species "x" behaves exactly like genus "Vulpes" with species absent. -/
theorem c1_hierarchy_species_first_witness :
    normKey (("Vulpes").data) ≠ [] ∧ normKey (("x").data) ≠ [] ∧
    get_by_hierarchy tax2 [] [] [] (("Vulpes").data) (("x").data) =
      get_by_hierarchy tax2 [] [] [] (("Vulpes").data) [] :=
  ⟨by decide, by decide,
   (c1_hierarchy_species_first tax2 [] [] [] (("Vulpes").data) (("x").data)
     (by decide) (by decide)).2 (by decide)⟩

/-- Claim C4 (confirmed): for every reference-table row with at least 7
semicolon-delimited fields that is loaded: if the species field is non-empty,
latin equals "genus species" lowercased; if species is empty, latin falls
back to the first non-empty of genus, family, order, class, lowercased, in
that order; a row with all five rank fields empty is skipped; and the latin
of every loaded entry is non-empty. -/
theorem c4_row_latin_construction (guid cls ord fam gen spec common : PyStr)
    (rest : List PyStr) (fileLines : List PyStr) :
    (spec ≠ [] →
      parseRow (guid :: cls :: ord :: fam :: gen :: spec :: common :: rest) =
        some ⟨pyLower (gen ++ ' ' :: spec), common,
          guid :: cls :: ord :: fam :: gen :: spec :: common :: rest⟩) ∧
    (spec = [] ∧ gen ≠ [] →
      parseRow (guid :: cls :: ord :: fam :: gen :: spec :: common :: rest) =
        some ⟨pyLower gen, common,
          guid :: cls :: ord :: fam :: gen :: spec :: common :: rest⟩) ∧
    (spec = [] ∧ gen = [] ∧ fam ≠ [] →
      parseRow (guid :: cls :: ord :: fam :: gen :: spec :: common :: rest) =
        some ⟨pyLower fam, common,
          guid :: cls :: ord :: fam :: gen :: spec :: common :: rest⟩) ∧
    (spec = [] ∧ gen = [] ∧ fam = [] ∧ ord ≠ [] →
      parseRow (guid :: cls :: ord :: fam :: gen :: spec :: common :: rest) =
        some ⟨pyLower ord, common,
          guid :: cls :: ord :: fam :: gen :: spec :: common :: rest⟩) ∧
    (spec = [] ∧ gen = [] ∧ fam = [] ∧ ord = [] ∧ cls ≠ [] →
      parseRow (guid :: cls :: ord :: fam :: gen :: spec :: common :: rest) =
        some ⟨pyLower cls, common,
          guid :: cls :: ord :: fam :: gen :: spec :: common :: rest⟩) ∧
    (spec = [] ∧ gen = [] ∧ fam = [] ∧ ord = [] ∧ cls = [] →
      parseRow (guid :: cls :: ord :: fam :: gen :: spec :: common :: rest) = none) ∧
    (∀ e, parseRow (guid :: cls :: ord :: fam :: gen :: spec :: common :: rest) = some e →
      e.latin ≠ []) ∧
    (∀ p ∈ (load fileLines).latin_to_row, p.2.latin ≠ []) := by
  refine ⟨?_, ?_, ?_, ?_, ?_, ?_, ?_, ?_⟩
  · intro h
    simp [parseRow, h]
  · intro h
    simp [parseRow, h.1, h.2]
  · intro h
    simp [parseRow, h.1, h.2.1, h.2.2]
  · intro h
    simp [parseRow, h.1, h.2.1, h.2.2.1, h.2.2.2]
  · intro h
    simp [parseRow, h.1, h.2.1, h.2.2.1, h.2.2.2.1, h.2.2.2.2]
  · intro h
    simp [parseRow, h.1, h.2.1, h.2.2.1, h.2.2.2.1, h.2.2.2.2]
  · intro e he
    exact (parseRow_entry_props he).2
  · intro p hp
    exact ((load_taxInv fileLines).1 p hp).2.2

/-- Witness for claim C4 at the concrete Ursus arctos row, plus the skip of a
row whose five rank fields are all empty. -/
theorem c4_row_latin_construction_witness :
    ("arctos").data ≠ [] ∧
    parseRow ursusParts =
      some ⟨pyLower (("Ursus").data ++ ' ' :: ("arctos").data), ("Brown Bear").data,
        ursusParts⟩ ∧
    parseRow [("g9").data, [], [], [], [], [], []] = none :=
  ⟨by decide,
   (c4_row_latin_construction ("g1").data ("Mammalia").data ("Carnivora").data
     ("Ursidae").data ("Ursus").data ("arctos").data ("Brown Bear").data [] []).1
     (by decide),
   (c4_row_latin_construction ("g9").data [] [] [] [] [] [] [] []).2.2.2.2.2.1
     (by decide)⟩

/-- Claim C7 counterexample: loading the row "g3;c;o;f;;arctos;Fox" (empty
genus, non-empty species) stores the Latin key " arctos", which carries a
leading space: the key does not equal its own lowercased, trimmed normal
form, and the stored entry is not reachable through the normalized lookup. -/
theorem c7_counterexample :
    (load [emptyGenusRow]).latin_to_row.map Prod.fst = [(" arctos").data] ∧
    pyStrip (pyLower ((" arctos").data)) ≠ (" arctos").data ∧
    get_by_latin (load [emptyGenusRow]) ((" arctos").data) = none := by
  refine ⟨by decide, by decide, by decide⟩

/-- Claim C7 (amended): after loading any reference file, every key of both
index mappings equals its own lowercased form.  Keys are not trimmed: a key
constructed from fields with surrounding whitespace (or from a species with
an empty genus) keeps that whitespace, and such an entry is not reachable
via the normalized lookups. -/
theorem c7_keys_lowercased (fileLines : List PyStr) (k : PyStr) (e : Entry)
    (h : (k, e) ∈ (load fileLines).latin_to_row ∨
         (k, e) ∈ (load fileLines).common_to_row) :
    pyLower k = k := by
  have hinv := load_taxInv fileLines
  rcases h with h | h
  · exact (hinv.1 (k, e) h).1
  · exact (hinv.2 (k, e) h).1

/-- Witness for the amended claim C7: the untrimmed key stored by the
counterexample row is nevertheless equal to its own lowercased form. -/
theorem c7_keys_lowercased_witness :
    ((" arctos").data, (⟨(" arctos").data, ("Fox").data, emptyGenusParts⟩ : Entry)) ∈
      (load [emptyGenusRow]).latin_to_row ∧
    pyLower ((" arctos").data) = (" arctos").data :=
  ⟨by decide,
   c7_keys_lowercased [emptyGenusRow] ((" arctos").data)
     ⟨(" arctos").data, ("Fox").data, emptyGenusParts⟩ (Or.inl (by decide))⟩

/-- Claim C9 (confirmed): for every two-token line whose first stripped
comma token is a known Latin name and whose second is not, the exact-match
parser returns the matched entry's canonical latin and common, with
original_latin set to the first token as typed and original_common to the
second token, unvalidated. -/
theorem c9_latin_then_common (tax : Taxonomy) (line p0 p1 : PyStr)
    (rest : List PyStr) (e : Entry)
    (hsplit : (splitOnChar ',' line).map pyStrip = p0 :: p1 :: rest)
    (h0 : get_by_latin tax p0 = some e)
    (h1 : get_by_latin tax p1 = none) :
    match_single_line_exact tax line = ⟨e.latin, e.common, p0, p1, line, none⟩ := by
  unfold match_single_line_exact
  rw [hsplit]
  simp only [match_fields, h0, h1]

/-- Witness for claim C9: with the row for Ursus arctos loaded, the line
"Ursus arctos, Brown Bear" is resolved by the exact pass alone. -/
theorem c9_latin_then_common_witness :
    (splitOnChar ',' (("Ursus arctos, Brown Bear").data)).map pyStrip =
      [("Ursus arctos").data, ("Brown Bear").data] ∧
    get_by_latin tax1 (("Ursus arctos").data) = some ursusEntry ∧
    get_by_latin tax1 (("Brown Bear").data) = none ∧
    match_single_line_exact tax1 (("Ursus arctos, Brown Bear").data) =
      ⟨("ursus arctos").data, ("Brown Bear").data, ("Ursus arctos").data,
       ("Brown Bear").data, ("Ursus arctos, Brown Bear").data, none⟩ :=
  ⟨by decide, by decide, by decide,
   c9_latin_then_common tax1 (("Ursus arctos, Brown Bear").data)
     (("Ursus arctos").data) (("Brown Bear").data) [] ursusEntry
     (by decide) (by decide) (by decide)⟩

/-- Claim C2 (confirmed): after the ambiguity-resolution pass, every member
of a group of more than one result sharing the same resolved latin value
with match_level among genus, family, order, class, has empty latin and
common and match_level ambiguous; results whose match_level is species or
common_name_fallback, or absent (exact matches), are never retracted. -/
theorem c2_ambiguity_resolution (rs : List LineResult) (i : Nat)
    (hi : i < rs.length) (hi2 : i < (resolve_ambiguous_matches rs).length) :
    ((isHigherLevelMatch rs[i] = true ∧ 1 < countHigher rs rs[i].latin) →
      ((resolve_ambiguous_matches rs)[i].latin = [] ∧
       (resolve_ambiguous_matches rs)[i].common = [] ∧
       (resolve_ambiguous_matches rs)[i].match_level = some Level.ambiguous)) ∧
    ((rs[i].match_level = some Level.species ∨
      rs[i].match_level = some Level.common_name_fallback ∨
      rs[i].match_level = none) →
      (resolve_ambiguous_matches rs)[i] = rs[i]) := by
  have hres := resolve_getElem rs i hi hi2
  constructor
  · intro hcond
    rw [hres, if_pos hcond]
    exact ⟨rfl, rfl, rfl⟩
  · intro hlv
    have hfalse : isHigherLevelMatch rs[i] = false := by
      unfold isHigherLevelMatch
      rcases hlv with h | h | h <;> rw [h] <;> rfl
    have hn : ¬ (isHigherLevelMatch rs[i] = true ∧ 1 < countHigher rs rs[i].latin) := by
      intro hc
      rw [hfalse] at hc
      exact Bool.false_ne_true hc.1
    rw [hres, if_neg hn]

/-- Witness for claim C2: two genus-level results for "vulpes" are both
cleared and marked ambiguous, while a species-level result sharing the genus
is untouched. -/
theorem c2_ambiguity_resolution_witness :
    ((resolve_ambiguous_matches rs0).get ⟨0, by decide⟩).latin = [] ∧
    ((resolve_ambiguous_matches rs0).get ⟨0, by decide⟩).common = [] ∧
    ((resolve_ambiguous_matches rs0).get ⟨0, by decide⟩).match_level =
      some Level.ambiguous ∧
    (resolve_ambiguous_matches rs0).get ⟨2, by decide⟩ = rspec := by
  have h0 := (c2_ambiguity_resolution rs0 0 (by decide) (by decide)).1 (by decide)
  have h2 := (c2_ambiguity_resolution rs0 2 (by decide) (by decide)).2
    (Or.inl (by decide))
  exact ⟨h0.1, h0.2.1, h0.2.2, h2⟩

/-- Claim C3 (confirmed): during the LLM-assisted pass, a line result is
modified by an item only if its raw_input equals the item's input_text
exactly and its latin is still empty, and only the first such unresolved
result in list order can be modified by that item. -/
theorem c3_writeback_frame (tax : Taxonomy) (item : GeminiItem)
    (rs : List LineResult) (i : Nat) (hi : i < rs.length)
    (hi2 : i < (processItem tax rs item).length) :
    (processItem tax rs item)[i] ≠ rs[i] →
      (rs[i].raw_input = item.input_text ∧ rs[i].latin = [] ∧
       ∀ j (hj : j < rs.length), j < i →
         ¬ (rs[j].raw_input = item.input_text ∧ rs[j].latin = [])) := by
  intro hne
  unfold processItem at hi2 hne
  by_cases hin : item.input_text = []
  · simp only [if_pos hin] at hne
    exact absurd rfl hne
  · simp only [if_neg hin] at hne hi2
    rcases updateResults_get item.input_text (computeItemMatch tax item) rs i hi hi2
      with h1 | h2
    · exact absurd h1 hne
    · exact h2

/-- Witness for claim C3: an item whose suggested common name resolves
modifies exactly the unresolved result carrying the same raw text. -/
theorem c3_writeback_frame_witness :
    (processItem tax1 rsU item0).get ⟨0, by decide⟩ ≠ rsU.get ⟨0, by decide⟩ ∧
    (rsU.get ⟨0, by decide⟩).raw_input = item0.input_text ∧
    (rsU.get ⟨0, by decide⟩).latin = [] := by
  have h := c3_writeback_frame tax1 item0 rsU 0 (by decide) (by decide) (by decide)
  exact ⟨by decide, h.1, h.2.1⟩

/-- Claim C8 (confirmed): the batch-processing step is modelled as a total
function of the parsed response; a failed model call or parse (parsed =
none, the caught-exception case) leaves every result unchanged, and in all
cases a result is only ever modified if its latin was empty, so every line
not updated keeps latin empty and no exception propagates to the caller. -/
theorem c8_fail_open (tax : Taxonomy) (parsed : Option (List GeminiItem))
    (rs : List LineResult) :
    (batch_process_with_gemini tax parsed rs).length = rs.length ∧
    (parsed = none → batch_process_with_gemini tax parsed rs = rs) ∧
    (∀ i (hi : i < rs.length)
       (hi2 : i < (batch_process_with_gemini tax parsed rs).length),
      (batch_process_with_gemini tax parsed rs)[i] = rs[i] ∨ rs[i].latin = []) := by
  refine ⟨batch_length tax parsed rs, ?_, ?_⟩
  · intro h
    rw [h]
    rfl
  · intro i hi hi2
    exact batch_get tax parsed rs i hi hi2

/-- Witness for claim C8: a failed parse leaves the unresolved line list
unchanged. -/
theorem c8_fail_open_witness :
    batch_process_with_gemini tax1 none rsU = rsU :=
  (c8_fail_open tax1 none rsU).2.1 rfl

/-- Claim C5 (confirmed): process_input returns exactly one result per line
that is non-empty after trimming, in the original line order; blank or
whitespace-only lines produce no output row, and each result's raw_input
equals the corresponding trimmed input line.  The equation on the projected
raw_input sequence captures count, order and content at once. -/
theorem c5_one_result_per_line (tax : Taxonomy) (parsed : Option (List GeminiItem))
    (modelAvailable : Bool) (lines : List PyStr) :
    (process_input tax parsed modelAvailable lines).map (fun r => r.raw_input) =
      (lines.map pyStrip).filter (fun l => decide (l ≠ [])) :=
  process_input_raw tax parsed modelAvailable lines

/-- Claim C10 (confirmed): in every result of process_input over a
well-formed index, the canonical fields are populated or cleared together:
a non-empty common implies a non-empty latin, and a non-empty latin means
the pair (latin, common) is copied from one stored reference entry. -/
theorem c10_canonical_pair_invariant (tax : Taxonomy)
    (parsed : Option (List GeminiItem)) (modelAvailable : Bool)
    (lines : List PyStr) (hwf : wellFormed tax) :
    ∀ r ∈ process_input tax parsed modelAvailable lines,
      (r.common ≠ [] → r.latin ≠ []) ∧
      (r.latin ≠ [] → ∃ e, entryOf tax e ∧ r.latin = e.latin ∧ r.common = e.common) := by
  intro r hr
  have hg := process_input_good tax parsed modelAvailable lines r hr
  rcases hg with ⟨h1, h2⟩ | ⟨e, he, h1, h2⟩
  · exact ⟨fun hc => absurd h2 hc, fun hl => absurd h1 hl⟩
  · refine ⟨fun _ => ?_, fun _ => ⟨e, he, h1, h2⟩⟩
    rw [h1]
    exact entryOf_latin_ne_nil hwf he

/-- Witness for claim C10: the exact match for "Ursus arctos, Brown Bear"
carries a non-empty canonical common name, hence a non-empty latin name. -/
theorem c10_canonical_pair_invariant_witness :
    wellFormed tax1 ∧
    ((process_input tax1 none false
        [("Ursus arctos, Brown Bear").data]).get ⟨0, by decide⟩).latin ≠ [] :=
  ⟨⟨by decide, by decide⟩,
   (c10_canonical_pair_invariant tax1 none false
      [("Ursus arctos, Brown Bear").data] ⟨by decide, by decide⟩
      ((process_input tax1 none false
        [("Ursus arctos, Brown Bear").data]).get ⟨0, by decide⟩)
      (by decide)).1 (by decide)⟩
